import Mathlib

/-!
air_box_app: the dust-sensor sketch and the sine-wave sketch.

Shallow embedding of `air_box_project/air_box_alter/src/main.cpp` (namespace `AirBoxAlter`) and
`air_box_project/test/src/main.cpp` (namespace `TestSketch`).

* `int` values are `Int`; no operation of either sketch leaves the 16-bit range.
* `unsigned long` values are `Nat` below `2^32`, with subtraction modulo `2^32`.
* `float` and `double` values are rationals; every floating-point operation is the exact
  operation followed by a rounding operator (`rf` for `float`, `rd` for `double`), which the
  definitions take as parameters. `roundTo p` is round-to-nearest-even with a `p`-bit
  significand; `id` is exact arithmetic.
* Hardware calls are recorded as a list of events in program order; the values read from
  `analogRead` and `millis` are inputs.
-/

/-- Round a rational to the nearest integer, ties to the even neighbour. -/
def roundHalfEven (q : ℚ) : ℤ :=
  if q - ⌊q⌋ < 1 / 2 then ⌊q⌋
  else if 1 / 2 < q - ⌊q⌋ then ⌊q⌋ + 1
  else if ⌊q⌋ % 2 = 0 then ⌊q⌋ else ⌊q⌋ + 1

/-- Exponent of the unit in the last place of `x` for a `p`-bit significand. -/
def ulpExp (p : ℕ) (x : ℚ) : ℤ := Int.log 2 |x| - ((p : ℤ) - 1)

/-- Round-to-nearest-even of `x` to a `p`-bit significand (binary32 for `p = 24`, binary64 for
`p = 53`); the exponent range is not bounded, so overflow and subnormal numbers are not
modelled. -/
def roundTo (p : ℕ) (x : ℚ) : ℚ :=
  if x = 0 then 0 else (roundHalfEven (x / 2 ^ ulpExp p x) : ℚ) * 2 ^ ulpExp p x

/-- The properties of a floating-point rounding operator (round to nearest, at least 24
significant bits) that the proofs rely on: it is monotone, it leaves values with a 24-bit
significand and an exponent in the normal range unchanged, and on the normal range its relative
error is at most `2^-24`. Every IEEE-754 binary format with a significand of 24 bits or more
does so, and so does exact arithmetic (`id`). -/
def FloatRounding (r : ℚ → ℚ) : Prop :=
  Monotone r ∧
  (∀ m k : ℤ, |m| < 2 ^ 24 → |k| ≤ 100 → r ((m : ℚ) * 2 ^ k) = (m : ℚ) * 2 ^ k) ∧
  (∀ x : ℚ, 1 / 2 ^ 100 ≤ |x| → |x| ≤ 2 ^ 100 → |r x - x| ≤ |x| / 2 ^ 24)

namespace TestSketch

/-- Hardware calls made by the waveform sketch, in program order. -/
inductive Event where
  | pinMode (pin : Int) (output : Bool)
  | serialBegin (baud : Nat)
  | analogWrite (pin : Int) (value : Int)
  | digitalWrite (pin : Int) (high : Bool)
  | serialPrintln (text : String)
  deriving DecidableEq, Repr

def ledPin : Int := 13
def pwmPin : Int := 9
def sampleRate : Int := 1000
def waveFrequency : Int := 50
def samplesPerCycle : Int := Int.tdiv sampleRate waveFrequency

def myFunction (x y : Int) : Int := x + y

/-- The C cast `(int)` of a floating value: truncation toward zero. -/
def truncToInt (y : ℚ) : Int := if 0 ≤ y then ⌊y⌋ else ⌈y⌉

/-- Right-hand side of the assignment in the body of the table loop of `setup`:
`(int)(127.5 * sin(2 * PI * i / samplesPerCycle) + 127.5)`, every operation in `double`. -/
def sineEntry (rd : ℚ → ℚ) (sin : ℚ → ℚ) (PI : ℚ) (i : Int) : Int :=
  truncToInt (rd (rd ((255 / 2 : ℚ) * sin (rd (rd (rd (2 * PI) * (i : ℚ)) / (samplesPerCycle : ℚ))))
    + (255 / 2 : ℚ)))

/-- The table `sineTable` as filled by `setup`. -/
def sineTable (rd : ℚ → ℚ) (sin : ℚ → ℚ) (PI : ℚ) : List Int :=
  (List.range samplesPerCycle.toNat).map (fun (i : Nat) => sineEntry rd sin PI (i : Int))

def setup (rd : ℚ → ℚ) (sin : ℚ → ℚ) (PI : ℚ) : List Int × List Event :=
  let _result := myFunction 2 3
  (sineTable rd sin PI,
    [Event.pinMode ledPin true, Event.pinMode pwmPin true, Event.serialBegin 9600])

/-- The function-local statics of `loop`. -/
structure LoopState where
  lastUpdateTime : Nat
  waveIndex : Int
  lastBlinkTime : Nat
  ledState : Bool
  deriving DecidableEq, Repr

def initState : LoopState :=
  { lastUpdateTime := 0, waveIndex := 0, lastBlinkTime := 0, ledState := false }

/-- Subtraction of two `unsigned long` values (32 bits wide on the target). -/
def usub32 (a b : Nat) : Nat := (a + (2 ^ 32 - b % 2 ^ 32)) % 2 ^ 32

/-- The read `sineTable[waveIndex]`; `none` when the index is outside the array. -/
def readTable (table : List Int) (i : Int) : Option Int :=
  if 0 ≤ i then table[i.toNat]? else none

/-- The update `(waveIndex + 1) % samplesPerCycle`. -/
def advance (i : Int) : Int := Int.tmod (i + 1) samplesPerCycle

/-- First `if` of `loop`: the 1 ms waveform timer. -/
def waveformTimer (table : List Int) (now : Nat) (s : LoopState) :
    Option (LoopState × List Event) :=
  if 1 ≤ usub32 now s.lastUpdateTime then
    match readTable table s.waveIndex with
    | none => none
    | some v =>
      some ({ s with waveIndex := advance s.waveIndex, lastUpdateTime := now },
        [Event.analogWrite pwmPin v])
  else some (s, [])

/-- Second `if` of `loop`: the 500 ms heartbeat timer. -/
def heartbeatTimer (now : Nat) (s : LoopState) : LoopState × List Event :=
  if 500 ≤ usub32 now s.lastBlinkTime then
    ({ s with ledState := !s.ledState, lastBlinkTime := now },
      [Event.digitalWrite ledPin (!s.ledState), Event.serialPrintln "Hello, World!"])
  else (s, [])

/-- One iteration of `loop`, with `now` the value returned by `millis()`. -/
def loop (table : List Int) (now : Nat) (s : LoopState) : Option (LoopState × List Event) :=
  match waveformTimer table now s with
  | none => none
  | some (s1, ev1) =>
    let (s2, ev2) := heartbeatTimer now s1
    some (s2, ev1 ++ ev2)

/-- Successive iterations of `loop`, one per reading of `millis()`; the trace records each
reading with the hardware calls of its iteration. -/
def run (table : List Int) : List Nat → LoopState → Option (LoopState × List (Nat × List Event))
  | [], s => some (s, [])
  | now :: rest, s =>
    match loop table now s with
    | none => none
    | some (s1, ev) =>
      match run table rest s1 with
      | none => none
      | some (s2, tr) => some (s2, (now, ev) :: tr)

/-- The levels written to the LED pin during one iteration. -/
def ledWrites : List Event → List Bool
  | [] => []
  | Event.digitalWrite pin high :: rest =>
    if pin = ledPin then high :: ledWrites rest else ledWrites rest
  | _ :: rest => ledWrites rest

/-- The LED toggles of a trace, each with the `millis()` reading of its iteration. -/
def toggles (tr : List (Nat × List Event)) : List (Nat × Bool) :=
  tr.flatMap (fun it => (ledWrites it.2).map (fun b => (it.1, b)))

/-- A rational stand-in for the library sine, used to instantiate the theorems on a concrete
table: the cubic Taylor polynomial clamped to `[-1, 1]`. -/
def sinClamp (x : ℚ) : ℚ := max (-1) (min 1 (x - x ^ 3 / 6))

/-- Toggle lists that alternate, starting opposite to `led`, with every toggle at least 500 ms
after the previous reference point `last`. -/
def GoodToggles : Nat → Bool → List (Nat × Bool) → Prop
  | _, _, [] => True
  | last, led, tb :: rest => last + 500 ≤ tb.1 ∧ tb.2 = (!led) ∧ GoodToggles tb.1 tb.2 rest

end TestSketch

namespace AirBoxAlter

/-- Hardware calls made by the sensor sketch, in program order. `serialPrintln` carries the
`float` handed to `Serial.println`; its decimal text is produced by the library. -/
inductive Event where
  | pinMode (pin : Int) (output : Bool)
  | serialBegin (baud : Nat)
  | digitalWrite (pin : Int) (high : Bool)
  | analogWrite (pin : Int) (value : Int)
  | delayMicroseconds (us : Int)
  | delay (ms : Int)
  | serialPrintln (value : ℚ)
  deriving DecidableEq

def led_r : Int := 3
def led_g : Int := 5
def led_b : Int := 6
def ledPower : Int := 2
def samplingTime : Int := 280
def deltaTime : Int := 40
def sleepTime : Int := 9680

/-- The `float` globals `voMeasured`, `calcVoltage` and `dustDensity`. -/
structure Globals where
  voMeasured : ℚ
  calcVoltage : ℚ
  dustDensity : ℚ
  deriving DecidableEq

def initGlobals : Globals := { voMeasured := 0, calcVoltage := 0, dustDensity := 0 }

/-- The body of `setup`; `measurePin` is the board constant `A5`. -/
def setup (measurePin : Int) : List Event :=
  [Event.serialBegin 9600, Event.pinMode led_r true, Event.pinMode led_g true,
   Event.pinMode led_b true, Event.pinMode ledPower true, Event.pinMode measurePin false,
   Event.digitalWrite led_r false, Event.digitalWrite led_g false, Event.digitalWrite led_b false]

/-- The assignment `calcVoltage = voMeasured * (5.0 / 1024.0)`: the product is formed in `double`
(rounding `rd`) and stored in a `float` (rounding `rf`). -/
def voltageOf (rf rd : ℚ → ℚ) (voMeasured : ℚ) : ℚ :=
  rf (rd (voMeasured * rd (rd 5 / rd 1024)))

/-- The `if`/`else` that assigns `dustDensity`: the comparison and the subtraction and
multiplication by the `double` literals are in `double`, `170 * calcVoltage` is in `float`. -/
def densityOf (rf rd : ℚ → ℚ) (calcVoltage : ℚ) : ℚ :=
  if rd (6 / 10) ≤ calcVoltage then
    rf (rd (rd (rf (170 * calcVoltage) - rd (1 / 10)) * rd (1 / 10)))
  else 0

/-- One iteration of `loop`; `reading` is the value returned by `analogRead(measurePin)`. -/
def loop (rf rd : ℚ → ℚ) (reading : Int) (_g : Globals) : Globals × List Event :=
  let voMeasured := rf (reading : ℚ)
  let calcVoltage := voltageOf rf rd voMeasured
  let dustDensity := densityOf rf rd calcVoltage
  ({ voMeasured := voMeasured, calcVoltage := calcVoltage, dustDensity := dustDensity },
    [Event.digitalWrite ledPower false, Event.delayMicroseconds samplingTime,
     Event.delayMicroseconds deltaTime, Event.digitalWrite ledPower true,
     Event.delayMicroseconds sleepTime, Event.delay 1000, Event.serialPrintln calcVoltage])

/-- The values printed on the serial line, in order. -/
def serialLines : List Event → List ℚ
  | [] => []
  | Event.serialPrintln v :: rest => v :: serialLines rest
  | _ :: rest => serialLines rest

/-- The local `int gap = 100` of `showBreathing`. -/
def gap : Int := 100

/-- The three `analogWrite` calls and the `delay(10)` of one step of `showBreathing`; the
argument `int(r/gap*i)` has `int` operands, so `r/gap` is the truncating integer quotient. -/
def breathStep (r g b : Int) (i : Int) : List Event :=
  [Event.analogWrite led_r (Int.tdiv r gap * i), Event.analogWrite led_g (Int.tdiv g gap * i),
   Event.analogWrite led_b (Int.tdiv b gap * i), Event.delay 10]

/-- The function `showBreathing`: `i` runs from 1 to `gap - 1`, then from `gap` down to 1. -/
def showBreathing (r g b : Int) : List Event :=
  (List.range' 1 (gap.toNat - 1)).flatMap (fun (i : Nat) => breathStep r g b (i : Int)) ++
  (List.range' 1 gap.toNat).reverse.flatMap (fun (i : Nat) => breathStep r g b (i : Int))

/-- The values written to `pin` by `analogWrite`, in order. -/
def writesTo (pin : Int) : List Event → List Int
  | [] => []
  | Event.analogWrite p v :: rest => if p = pin then v :: writesTo pin rest else writesTo pin rest
  | _ :: rest => writesTo pin rest

end AirBoxAlter

/-! ## Rounding lemmas -/

theorem rhe_spec (q : ℚ) :
    |q - roundHalfEven q| ≤ 1 / 2 ∧ (|q - roundHalfEven q| = 1 / 2 → roundHalfEven q % 2 = 0) := by
  have h1 := Int.floor_le q
  have h2 := Int.lt_floor_add_one q
  unfold roundHalfEven
  split_ifs with a b c
  · refine ⟨by rw [abs_le]; constructor <;> linarith, fun h => ?_⟩
    rw [abs_of_nonneg (by linarith)] at h
    linarith
  · refine ⟨by rw [abs_le]; push_cast; constructor <;> linarith, fun h => ?_⟩
    push_cast at h
    rw [abs_of_nonpos (by linarith)] at h
    linarith
  · exact ⟨by rw [abs_le]; constructor <;> linarith, fun _ => c⟩
  · refine ⟨by rw [abs_le]; push_cast; constructor <;> linarith, fun _ => ?_⟩
    omega

theorem rhe_unique (q : ℚ) (r : ℤ) (h1 : |q - r| ≤ 1 / 2) (h2 : |q - r| = 1 / 2 → r % 2 = 0) :
    roundHalfEven q = r := by
  obtain ⟨s1, s2⟩ := rhe_spec q
  rw [abs_le] at h1 s1
  rcases lt_trichotomy (roundHalfEven q) r with h | h | h
  · exfalso
    have h3 : (roundHalfEven q : ℚ) + 1 ≤ r := by exact_mod_cast h
    have e1 : q - roundHalfEven q = 1 / 2 := by linarith
    have e2 : q - r = -(1 / 2) := by linarith
    have := s2 (by rw [e1]; norm_num)
    have := h2 (by rw [e2]; norm_num)
    have h4 : (r : ℚ) = roundHalfEven q + 1 := by linarith
    have h5 : r = roundHalfEven q + 1 := by exact_mod_cast h4
    omega
  · exact h
  · exfalso
    have h3 : (r : ℚ) + 1 ≤ roundHalfEven q := by exact_mod_cast h
    have e1 : q - roundHalfEven q = -(1 / 2) := by linarith
    have e2 : q - r = 1 / 2 := by linarith
    have := s2 (by rw [e1]; norm_num)
    have := h2 (by rw [e2]; norm_num)
    have h4 : (roundHalfEven q : ℚ) = r + 1 := by linarith
    have h5 : roundHalfEven q = r + 1 := by exact_mod_cast h4
    omega

theorem rhe_intCast (n : ℤ) : roundHalfEven (n : ℚ) = n :=
  rhe_unique _ _ (by simp) (by simp)

theorem rhe_neg (q : ℚ) : roundHalfEven (-q) = - roundHalfEven q := by
  obtain ⟨s1, s2⟩ := rhe_spec q
  apply rhe_unique
  · push_cast
    rw [show -q - -(roundHalfEven q : ℚ) = -(q - roundHalfEven q) by ring, abs_neg]
    exact s1
  · push_cast
    rw [show -q - -(roundHalfEven q : ℚ) = -(q - roundHalfEven q) by ring, abs_neg]
    intro h
    have := s2 h
    omega

theorem rhe_mono {q q' : ℚ} (h : q ≤ q') : roundHalfEven q ≤ roundHalfEven q' := by
  by_contra hc
  push_neg at hc
  obtain ⟨s1, s2⟩ := rhe_spec q
  obtain ⟨t1, t2⟩ := rhe_spec q'
  rw [abs_le] at s1 t1
  have h3 : (roundHalfEven q' : ℚ) + 1 ≤ roundHalfEven q := by exact_mod_cast hc
  have e : q = q' := by linarith
  rw [e] at hc
  exact lt_irrefl _ hc

theorem ulpExp_neg (p : ℕ) (x : ℚ) : ulpExp p (-x) = ulpExp p x := by
  unfold ulpExp
  rw [abs_neg]

theorem roundTo_neg (p : ℕ) (x : ℚ) : roundTo p (-x) = - roundTo p x := by
  unfold roundTo
  by_cases hx : x = 0
  · simp [hx]
  · have hx' : -x ≠ 0 := neg_ne_zero.mpr hx
    rw [if_neg hx, if_neg hx', ulpExp_neg, neg_div, rhe_neg]
    push_cast
    ring

theorem ulp_pos (p : ℕ) (x : ℚ) : (0 : ℚ) < 2 ^ ulpExp p x := by positivity

theorem roundTo_zero (p : ℕ) : roundTo p 0 = 0 := by simp [roundTo]

theorem zpow_log_split (p : ℕ) (hp : 1 ≤ p) {x : ℚ} (hx : 0 < x) :
    (2 : ℚ) ^ Int.log 2 x = ((2 ^ (p - 1) : ℤ) : ℚ) * 2 ^ ulpExp p x ∧
    (2 : ℚ) ^ (Int.log 2 x + 1) = ((2 ^ p : ℤ) : ℚ) * 2 ^ ulpExp p x := by
  unfold ulpExp
  rw [abs_of_pos hx]
  push_cast
  rw [← zpow_natCast, ← zpow_natCast, ← zpow_add₀ (by norm_num : (2 : ℚ) ≠ 0),
    ← zpow_add₀ (by norm_num : (2 : ℚ) ≠ 0)]
  have : ((p - 1 : ℕ) : ℤ) = (p : ℤ) - 1 := by omega
  constructor
  · congr 1
    omega
  · congr 1
    omega

/-- For positive `x` the scaled significand lies in `[2^(p-1), 2^p)`. -/
theorem scaled_bounds (p : ℕ) (hp : 1 ≤ p) {x : ℚ} (hx : 0 < x) :
    ((2 ^ (p - 1) : ℤ) : ℚ) ≤ x / 2 ^ ulpExp p x ∧ x / 2 ^ ulpExp p x < ((2 ^ p : ℤ) : ℚ) := by
  have hu := ulp_pos p x
  have h1 : (2 : ℚ) ^ Int.log 2 x ≤ x := by
    have := Int.zpow_log_le_self (b := 2) (r := x) (by norm_num) hx
    simpa using this
  have h2 : x < (2 : ℚ) ^ (Int.log 2 x + 1) := by
    have := Int.lt_zpow_succ_log_self (b := 2) (by norm_num) x
    simpa using this
  obtain ⟨e1, e2⟩ := zpow_log_split p hp hx
  rw [e1] at h1
  rw [e2] at h2
  exact ⟨(le_div_iff₀ hu).mpr h1, (div_lt_iff₀ hu).mpr h2⟩

/-- A positive `x` in the binade `[2^e, 2^(e+1))` rounds into `[2^e, 2^(e+1)]`. -/
theorem roundTo_bounds (p : ℕ) (hp : 1 ≤ p) {x : ℚ} (hx : 0 < x) :
    (2 : ℚ) ^ Int.log 2 x ≤ roundTo p x ∧ roundTo p x ≤ (2 : ℚ) ^ (Int.log 2 x + 1) := by
  obtain ⟨b1, b2⟩ := scaled_bounds p hp hx
  have hu := ulp_pos p x
  have m1 := rhe_mono b1
  have m2 := rhe_mono b2.le
  rw [rhe_intCast] at m1 m2
  have m1c : ((2 ^ (p - 1) : ℤ) : ℚ) ≤ roundHalfEven (x / 2 ^ ulpExp p x) := by exact_mod_cast m1
  have m2c : (roundHalfEven (x / 2 ^ ulpExp p x) : ℚ) ≤ ((2 ^ p : ℤ) : ℚ) := by exact_mod_cast m2
  obtain ⟨e1, e2⟩ := zpow_log_split p hp hx
  unfold roundTo
  rw [if_neg hx.ne', e1, e2]
  exact ⟨mul_le_mul_of_nonneg_right m1c hu.le, mul_le_mul_of_nonneg_right m2c hu.le⟩

theorem roundTo_pos (p : ℕ) (hp : 1 ≤ p) {x : ℚ} (hx : 0 < x) : 0 < roundTo p x :=
  lt_of_lt_of_le (by positivity) (roundTo_bounds p hp hx).1

theorem roundTo_mono_pos (p : ℕ) (hp : 1 ≤ p) {x y : ℚ} (hx : 0 < x) (hxy : x ≤ y) :
    roundTo p x ≤ roundTo p y := by
  have hy : 0 < y := lt_of_lt_of_le hx hxy
  have hl : Int.log 2 x ≤ Int.log 2 y := Int.log_mono_right hx hxy
  rcases hl.lt_or_eq with h | h
  · calc roundTo p x ≤ (2 : ℚ) ^ (Int.log 2 x + 1) := (roundTo_bounds p hp hx).2
      _ ≤ (2 : ℚ) ^ Int.log 2 y := zpow_le_zpow_right₀ (by norm_num) (by omega)
      _ ≤ roundTo p y := (roundTo_bounds p hp hy).1
  · have hu : ulpExp p x = ulpExp p y := by
      unfold ulpExp
      rw [abs_of_pos hx, abs_of_pos hy, h]
    unfold roundTo
    rw [if_neg hx.ne', if_neg hy.ne', hu]
    have hup := ulp_pos p y
    apply mul_le_mul_of_nonneg_right _ hup.le
    have : x / 2 ^ ulpExp p y ≤ y / 2 ^ ulpExp p y := div_le_div_of_nonneg_right hxy hup.le
    exact_mod_cast rhe_mono this

theorem roundTo_mono (p : ℕ) (hp : 1 ≤ p) : Monotone (roundTo p) := by
  intro x y hxy
  rcases lt_trichotomy x 0 with hx | hx | hx
  · rcases lt_trichotomy y 0 with hy | hy | hy
    · have := roundTo_mono_pos p hp (neg_pos.mpr hy) (neg_le_neg hxy)
      rw [roundTo_neg, roundTo_neg] at this
      linarith
    · rw [hy, roundTo_zero]
      have := roundTo_pos p hp (neg_pos.mpr hx)
      rw [roundTo_neg] at this
      linarith
    · have h1 := roundTo_pos p hp (neg_pos.mpr hx)
      rw [roundTo_neg] at h1
      have h2 := roundTo_pos p hp hy
      linarith
  · rw [hx, roundTo_zero]
    rcases hxy.lt_or_eq with hy | hy
    · exact (roundTo_pos p hp (hx ▸ hy)).le
    · rw [← hy, hx, roundTo_zero]
  · exact roundTo_mono_pos p hp hx hxy

theorem roundTo_exact_pos (p : ℕ) {m k : ℤ} (hm : 0 < m) (hlt : m < 2 ^ p) :
    roundTo p ((m : ℚ) * 2 ^ k) = (m : ℚ) * 2 ^ k := by
  have hx : (0 : ℚ) < (m : ℚ) * 2 ^ k := by
    have : (0 : ℚ) < m := by exact_mod_cast hm
    positivity
  have h1 : (2 : ℚ) ^ Int.log 2 ((m : ℚ) * 2 ^ k) ≤ (m : ℚ) * 2 ^ k := by
    have := Int.zpow_log_le_self (b := 2) (r := (m : ℚ) * 2 ^ k) (by norm_num) hx
    simpa using this
  have h2 : (m : ℚ) * 2 ^ k < 2 ^ ((p : ℤ) + k) := by
    rw [zpow_add₀ (by norm_num : (2 : ℚ) ≠ 0), zpow_natCast]
    have : (m : ℚ) < 2 ^ p := by exact_mod_cast hlt
    exact mul_lt_mul_of_pos_right this (by positivity)
  have h3 : Int.log 2 ((m : ℚ) * 2 ^ k) < (p : ℤ) + k := by
    have := lt_of_le_of_lt h1 h2
    exact (zpow_lt_zpow_iff_right₀ (by norm_num : (1 : ℚ) < 2)).mp this
  have hu : ulpExp p ((m : ℚ) * 2 ^ k) ≤ k := by
    unfold ulpExp
    rw [abs_of_pos hx]
    omega
  obtain ⟨n, hn⟩ := Int.eq_ofNat_of_zero_le (sub_nonneg.mpr hu)
  have hk : k = (n : ℤ) + ulpExp p ((m : ℚ) * 2 ^ k) := by omega
  have hq : (m : ℚ) * 2 ^ k / 2 ^ ulpExp p ((m : ℚ) * 2 ^ k) = ((m * 2 ^ n : ℤ) : ℚ) := by
    rw [div_eq_iff (ulp_pos p _).ne']
    push_cast
    rw [mul_assoc, ← zpow_natCast, ← zpow_add₀ (by norm_num : (2 : ℚ) ≠ 0), ← hk]
  unfold roundTo
  rw [if_neg hx.ne', hq, rhe_intCast]
  push_cast
  rw [mul_assoc, ← zpow_natCast, ← zpow_add₀ (by norm_num : (2 : ℚ) ≠ 0), ← hk]

theorem roundTo_exact (p : ℕ) (m k : ℤ) (hlt : |m| < 2 ^ p) :
    roundTo p ((m : ℚ) * 2 ^ k) = (m : ℚ) * 2 ^ k := by
  rw [abs_lt] at hlt
  rcases lt_trichotomy m 0 with h | h | h
  · have := roundTo_exact_pos p (m := -m) (k := k) (by omega) (by omega)
    push_cast at this
    rw [neg_mul, roundTo_neg] at this
    linarith
  · simp [h, roundTo_zero]
  · exact roundTo_exact_pos p h hlt.2

theorem roundTo_error (p : ℕ) (x : ℚ) : |roundTo p x - x| ≤ |x| / 2 ^ p := by
  by_cases hx : x = 0
  · simp [hx, roundTo_zero]
  have hu := ulp_pos p x
  have hax : 0 < |x| := abs_pos.mpr hx
  have h1 : (2 : ℚ) ^ Int.log 2 |x| ≤ |x| := by
    have := Int.zpow_log_le_self (b := 2) (r := |x|) (by norm_num) hax
    simpa using this
  have e : roundTo p x - x
      = ((roundHalfEven (x / 2 ^ ulpExp p x) : ℚ) - x / 2 ^ ulpExp p x) * 2 ^ ulpExp p x := by
    unfold roundTo
    rw [if_neg hx]
    field_simp
  have hs := (rhe_spec (x / 2 ^ ulpExp p x)).1
  rw [abs_sub_comm] at hs
  rw [e, abs_mul, abs_of_pos hu]
  have e2 : (2 : ℚ) ^ ulpExp p x = 2 * (2 ^ Int.log 2 |x| / 2 ^ p) := by
    unfold ulpExp
    rw [← zpow_natCast, ← zpow_sub₀ (by norm_num : (2 : ℚ) ≠ 0)]
    rw [show Int.log 2 |x| - ((p : ℤ) - 1) = 1 + (Int.log 2 |x| - p) by ring]
    rw [zpow_add₀ (by norm_num : (2 : ℚ) ≠ 0), zpow_one]
  calc |(roundHalfEven (x / 2 ^ ulpExp p x) : ℚ) - x / 2 ^ ulpExp p x| * 2 ^ ulpExp p x
      ≤ 1 / 2 * 2 ^ ulpExp p x := mul_le_mul_of_nonneg_right hs hu.le
    _ = 2 ^ Int.log 2 |x| / 2 ^ p := by rw [e2]; ring
    _ ≤ |x| / 2 ^ p := div_le_div_of_nonneg_right h1 (by positivity)

theorem floatRounding_id : FloatRounding id := by
  refine ⟨monotone_id, fun _ _ _ _ => rfl, fun x _ _ => ?_⟩
  simp only [id, sub_self, abs_zero]
  exact div_nonneg (abs_nonneg x) (pow_nonneg (by norm_num) 24)

theorem floatRounding_roundTo (p : ℕ) (hp : 24 ≤ p) : FloatRounding (roundTo p) := by
  refine ⟨roundTo_mono p (by omega), fun m k hm _ => ?_, fun x _ _ => ?_⟩
  · apply roundTo_exact
    calc |m| < 2 ^ 24 := hm
      _ ≤ 2 ^ p := pow_le_pow_right₀ (by norm_num) hp
  · calc |roundTo p x - x| ≤ |x| / 2 ^ p := roundTo_error p x
      _ ≤ |x| / 2 ^ 24 := by
        apply div_le_div_of_nonneg_left (abs_nonneg x) (by positivity)
        exact pow_le_pow_right₀ (by norm_num) hp

theorem FloatRounding.dyadic {r : ℚ → ℚ} (h : FloatRounding r) (m k : ℤ) (x : ℚ)
    (hm : |m| < 2 ^ 24) (hk : |k| ≤ 100) (hx : x = (m : ℚ) * 2 ^ k) : r x = x := by
  rw [hx]
  exact h.2.1 m k hm hk

theorem FloatRounding.int {r : ℚ → ℚ} (h : FloatRounding r) (m : ℤ) (hm : |m| < 2 ^ 24) :
    r (m : ℚ) = m :=
  h.dyadic m 0 _ hm (by norm_num) (by simp)

theorem FloatRounding.zero {r : ℚ → ℚ} (h : FloatRounding r) : r 0 = 0 := by
  simpa using h.int 0 (by norm_num)

theorem FloatRounding.err {r : ℚ → ℚ} (h : FloatRounding r) (x lo hi : ℚ)
    (hlo : 1 / 2 ^ 100 ≤ lo) (hhi : hi ≤ 2 ^ 100) (h1 : lo ≤ x) (h2 : x ≤ hi) :
    |r x - x| ≤ hi / 2 ^ 24 := by
  have hx : 0 < x := lt_of_lt_of_le (lt_of_lt_of_le (by positivity) hlo) h1
  have := h.2.2 x (by rw [abs_of_pos hx]; linarith) (by rw [abs_of_pos hx]; linarith)
  rw [abs_of_pos hx] at this
  calc |r x - x| ≤ x / 2 ^ 24 := this
    _ ≤ hi / 2 ^ 24 := div_le_div_of_nonneg_right h2 (by positivity)

namespace TestSketch

theorem samplesPerCycle_eq : samplesPerCycle = 20 := by decide

theorem usub32_of_le {a b : Nat} (hab : b ≤ a) (ha : a < 2 ^ 32) : usub32 a b = a - b := by
  unfold usub32
  omega

theorem usub32_wrap {last d : Nat} (hd : d < 2 ^ 32) :
    usub32 ((last + d) % 2 ^ 32) last = d := by
  unfold usub32
  omega

theorem readTable_some (table : List Int) {i : Int} (h0 : 0 ≤ i) (h1 : i < table.length) :
    ∃ v, readTable table i = some v := by
  unfold readTable
  rw [if_pos h0]
  have : i.toNat < table.length := by omega
  exact ⟨table[i.toNat], List.getElem?_eq_getElem this⟩

theorem advance_range {i : Int} (h0 : 0 ≤ i) (h1 : i < 20) :
    0 ≤ advance i ∧ advance i < 20 := by
  unfold advance
  rw [samplesPerCycle_eq, Int.tmod_eq_emod (by omega) (by omega)]
  omega

theorem advance_eq {i : Int} (h0 : 0 ≤ i) : advance i = (i + 1) % 20 := by
  unfold advance
  rw [samplesPerCycle_eq, Int.tmod_eq_emod (by omega) (by omega)]

theorem heartbeat_waveIndex (now : Nat) (s : LoopState) :
    (heartbeatTimer now s).1.waveIndex = s.waveIndex := by
  unfold heartbeatTimer
  split_ifs <;> rfl

theorem waveform_blink (table : List Int) (now : Nat) (s s1 : LoopState) (ev : List Event)
    (h : waveformTimer table now s = some (s1, ev)) :
    s1.lastBlinkTime = s.lastBlinkTime ∧ s1.ledState = s.ledState ∧ ledWrites ev = [] := by
  unfold waveformTimer at h
  split_ifs at h with c
  · split at h
    · exact absurd h (by simp)
    · simp only [Option.some.injEq, Prod.mk.injEq] at h
      obtain ⟨rfl, rfl⟩ := h
      exact ⟨rfl, rfl, rfl⟩
  · simp only [Option.some.injEq, Prod.mk.injEq] at h
    obtain ⟨rfl, rfl⟩ := h
    exact ⟨rfl, rfl, rfl⟩

theorem waveform_total (table : List Int) (hlen : table.length = 20) (now : Nat) (s : LoopState)
    (h0 : 0 ≤ s.waveIndex) (h1 : s.waveIndex < 20) :
    ∃ s1 ev, waveformTimer table now s = some (s1, ev) ∧ 0 ≤ s1.waveIndex ∧ s1.waveIndex < 20 := by
  obtain ⟨v, hv⟩ := readTable_some table h0 (by rw [hlen]; exact_mod_cast h1)
  unfold waveformTimer
  split_ifs with c
  · rw [hv]
    exact ⟨_, _, rfl, (advance_range h0 h1).1, (advance_range h0 h1).2⟩
  · exact ⟨_, _, rfl, h0, h1⟩

theorem loop_total (table : List Int) (hlen : table.length = 20) (now : Nat) (s : LoopState)
    (h0 : 0 ≤ s.waveIndex) (h1 : s.waveIndex < 20) :
    ∃ s2 ev, loop table now s = some (s2, ev) ∧ 0 ≤ s2.waveIndex ∧ s2.waveIndex < 20 := by
  obtain ⟨s1, ev1, hw, a0, a1⟩ := waveform_total table hlen now s h0 h1
  unfold loop
  rw [hw]
  refine ⟨_, _, rfl, ?_, ?_⟩
  · show 0 ≤ (heartbeatTimer now s1).1.waveIndex
    rw [heartbeat_waveIndex]; exact a0
  · show (heartbeatTimer now s1).1.waveIndex < 20
    rw [heartbeat_waveIndex]; exact a1

theorem run_total (table : List Int) (hlen : table.length = 20) (ts : List Nat) :
    ∀ s : LoopState, 0 ≤ s.waveIndex → s.waveIndex < 20 →
      ∃ s2 tr, run table ts s = some (s2, tr) ∧ 0 ≤ s2.waveIndex ∧ s2.waveIndex < 20 := by
  induction ts with
  | nil => intro s h0 h1; exact ⟨s, [], rfl, h0, h1⟩
  | cons now rest ih =>
    intro s h0 h1
    obtain ⟨s1, ev, hl, a0, a1⟩ := loop_total table hlen now s h0 h1
    obtain ⟨s2, tr, hr, b0, b1⟩ := ih s1 a0 a1
    refine ⟨s2, (now, ev) :: tr, ?_, b0, b1⟩
    simp only [run, hl, hr]


theorem goodToggles_level : ∀ (l : List (Nat × Bool)) (last : Nat) (led : Bool),
    GoodToggles last led l → ∀ (k : Nat) (h : k < l.length),
      (l.get ⟨k, h⟩).2 = if k % 2 = 0 then !led else led := by
  intro l
  induction l with
  | nil => intro _ _ _ k h; exact absurd h (by simp)
  | cons tb rest ih =>
    intro last led hg k h
    obtain ⟨_, h2, h3⟩ := hg
    cases k with
    | zero => simpa using h2
    | succ n =>
      have hn : n < rest.length := by simpa using h
      have := ih tb.1 tb.2 h3 n hn
      simp only [List.get_eq_getElem, List.getElem_cons_succ] at this ⊢
      rw [this, h2]
      rcases Nat.mod_two_eq_zero_or_one n with e | e
      · have e2 : (n + 1) % 2 = 1 := by omega
        simp [e, e2]
      · have e2 : (n + 1) % 2 = 0 := by omega
        simp [e, e2]

theorem goodToggles_gap : ∀ (l : List (Nat × Bool)) (last : Nat) (led : Bool),
    GoodToggles last led l → ∀ (k : Nat) (h : k + 1 < l.length),
      (l.get ⟨k, Nat.lt_of_succ_lt h⟩).1 + 500 ≤ (l.get ⟨k + 1, h⟩).1 := by
  intro l
  induction l with
  | nil => intro _ _ _ k h; exact absurd h (by simp)
  | cons tb rest ih =>
    intro last led hg k h
    obtain ⟨_, _, h3⟩ := hg
    cases k with
    | zero =>
      cases rest with
      | nil => exact absurd h (by simp)
      | cons tb2 rest2 => simpa using h3.1
    | succ n =>
      have hn : n + 1 < rest.length := by simpa using h
      simpa using ih tb.1 tb.2 h3 n hn

theorem toggles_cons (now : Nat) (ev : List Event) (tr : List (Nat × List Event)) :
    toggles ((now, ev) :: tr) = (ledWrites ev).map (fun b => (now, b)) ++ toggles tr := by
  simp [toggles]

theorem loop_heartbeat (table : List Int) (now : Nat) (s s2 : LoopState) (ev : List Event)
    (h : loop table now s = some (s2, ev)) :
    (500 ≤ usub32 now s.lastBlinkTime →
      s2.ledState = (!s.ledState) ∧ s2.lastBlinkTime = now ∧ ledWrites ev = [!s.ledState]) ∧
    (¬ 500 ≤ usub32 now s.lastBlinkTime →
      s2.ledState = s.ledState ∧ s2.lastBlinkTime = s.lastBlinkTime ∧ ledWrites ev = []) := by
  unfold loop at h
  split at h
  · exact absurd h (by simp)
  · rename_i s1 ev1 hw
    obtain ⟨w1, w2, w3⟩ := waveform_blink table now s s1 ev1 hw
    simp only [Option.some.injEq, Prod.mk.injEq] at h
    obtain ⟨rfl, rfl⟩ := h
    have hl : ∀ a b : List Event, ledWrites a = [] → ledWrites (a ++ b) = ledWrites b := by
      intro a
      induction a with
      | nil => intro b _; rfl
      | cons e a ih =>
        intro b hab
        cases e with
        | digitalWrite pin high =>
          by_cases hp : pin = ledPin
          · simp [ledWrites, hp] at hab
          · simp only [ledWrites, hp, if_false, List.cons_append] at hab ⊢
            exact ih b hab
        | pinMode _ _ => exact ih b hab
        | serialBegin _ => exact ih b hab
        | analogWrite _ _ => exact ih b hab
        | serialPrintln _ => exact ih b hab
    rw [hl _ _ w3, ← w1, ← w2]
    unfold heartbeatTimer
    constructor
    · intro c
      rw [if_pos c]
      exact ⟨rfl, rfl, by simp [ledWrites]⟩
    · intro c
      rw [if_neg c]
      exact ⟨rfl, rfl, rfl⟩

theorem run_goodToggles (table : List Int) (hlen : table.length = 20) (ts : List Nat) :
    ∀ s : LoopState, 0 ≤ s.waveIndex → s.waveIndex < 20 →
      ts.Pairwise (fun a b => a ≤ b) → (∀ t ∈ ts, t < 2 ^ 32) → (∀ t ∈ ts, s.lastBlinkTime ≤ t) →
      ∃ s2 tr, run table ts s = some (s2, tr) ∧
        GoodToggles s.lastBlinkTime s.ledState (toggles tr) := by
  induction ts with
  | nil => intro s _ _ _ _ _; exact ⟨s, [], rfl, trivial⟩
  | cons now rest ih =>
    intro s h0 h1 hs hb hl
    obtain ⟨s1, ev, hloop, a0, a1⟩ := loop_total table hlen now s h0 h1
    obtain ⟨hfire, hskip⟩ := loop_heartbeat table now s s1 ev hloop
    have hnow : now < 2 ^ 32 := hb now (List.mem_cons_self _ _)
    have hlast : s.lastBlinkTime ≤ now := hl now (List.mem_cons_self _ _)
    rw [List.pairwise_cons] at hs
    have hb2 : ∀ t ∈ rest, t < 2 ^ 32 := fun t ht => hb t (List.mem_cons_of_mem _ ht)
    by_cases c : 500 ≤ usub32 now s.lastBlinkTime
    · obtain ⟨e1, e2, e3⟩ := hfire c
      obtain ⟨s2, tr, hr, hg⟩ := ih s1 a0 a1 hs.2 hb2 (by rw [e2]; exact hs.1)
      refine ⟨s2, (now, ev) :: tr, by simp only [run, hloop, hr], ?_⟩
      rw [toggles_cons, e3]
      rw [usub32_of_le hlast hnow] at c
      rw [e1, e2] at hg
      exact ⟨by show s.lastBlinkTime + 500 ≤ now; omega, rfl, hg⟩
    · obtain ⟨e1, e2, e3⟩ := hskip c
      obtain ⟨s2, tr, hr, hg⟩ := ih s1 a0 a1 hs.2 hb2
        (by rw [e2]; exact fun t ht => hl t (List.mem_cons_of_mem _ ht))
      refine ⟨s2, (now, ev) :: tr, by simp only [run, hloop, hr], ?_⟩
      rw [toggles_cons, e3]
      rw [e1, e2] at hg
      exact hg


theorem truncToInt_range {y : ℚ} (h0 : 0 ≤ y) (h1 : y ≤ 255) :
    0 ≤ truncToInt y ∧ truncToInt y ≤ 255 := by
  unfold truncToInt
  rw [if_pos h0]
  constructor
  · exact Int.floor_nonneg.mpr h0
  · have : (⌊y⌋ : ℚ) ≤ 255 := le_trans (Int.floor_le y) h1
    exact_mod_cast this

theorem sineEntry_range {rd sin : ℚ → ℚ} (hd : FloatRounding rd)
    (hsin : ∀ x, -1 ≤ sin x ∧ sin x ≤ 1) (PI : ℚ) (i : Int) :
    0 ≤ sineEntry rd sin PI i ∧ sineEntry rd sin PI i ≤ 255 := by
  obtain ⟨s1, s2⟩ := hsin (rd (rd (rd (2 * PI) * (i : ℚ)) / (samplesPerCycle : ℚ)))
  have e1 : rd (255 / 2) = 255 / 2 :=
    hd.dyadic 255 (-1) _ (by norm_num) (by norm_num) (by norm_num)
  have e2 : rd (-(255 / 2)) = -(255 / 2) :=
    hd.dyadic (-255) (-1) _ (by norm_num) (by norm_num) (by norm_num)
  have e3 : rd 255 = 255 := by simpa using hd.int 255 (by norm_num)
  have m1 := hd.1 (show -(255 / 2 : ℚ) ≤ (255 / 2 : ℚ) *
    sin (rd (rd (rd (2 * PI) * (i : ℚ)) / (samplesPerCycle : ℚ))) by linarith)
  have m2 := hd.1 (show (255 / 2 : ℚ) *
    sin (rd (rd (rd (2 * PI) * (i : ℚ)) / (samplesPerCycle : ℚ))) ≤ 255 / 2 by linarith)
  rw [e2] at m1
  rw [e1] at m2
  have n1 := hd.1 (show (0 : ℚ) ≤ rd ((255 / 2 : ℚ) *
    sin (rd (rd (rd (2 * PI) * (i : ℚ)) / (samplesPerCycle : ℚ)))) + 255 / 2 by linarith)
  have n2 := hd.1 (show rd ((255 / 2 : ℚ) *
    sin (rd (rd (rd (2 * PI) * (i : ℚ)) / (samplesPerCycle : ℚ)))) + 255 / 2 ≤ (255 : ℚ) by linarith)
  rw [hd.zero] at n1
  rw [e3] at n2
  exact truncToInt_range n1 n2

theorem sineEntry_zero {rd sin : ℚ → ℚ} (hd : FloatRounding rd) (hsin0 : sin 0 = 0) (PI : ℚ) :
    sineEntry rd sin PI 0 = 127 := by
  have e1 : rd (255 / 2) = 255 / 2 :=
    hd.dyadic 255 (-1) _ (by norm_num) (by norm_num) (by norm_num)
  unfold sineEntry truncToInt
  simp only [Int.cast_zero, mul_zero, hd.zero, zero_div, hsin0, zero_add, e1]
  norm_num

theorem sineTable_length (rd sin : ℚ → ℚ) (PI : ℚ) : (sineTable rd sin PI).length = 20 := by
  simp [sineTable, samplesPerCycle_eq]

theorem sineTable_get (rd sin : ℚ → ℚ) (PI : ℚ) (i : Nat) (h : i < 20) :
    (sineTable rd sin PI)[i]? = some (sineEntry rd sin PI (i : Int)) := by
  have hs : samplesPerCycle.toNat = 20 := by rw [samplesPerCycle_eq]; rfl
  simp [sineTable, hs, List.getElem?_map, List.getElem?_range h]

end TestSketch

namespace AirBoxAlter

theorem voltage_exact {rf rd : ℚ → ℚ} (hf : FloatRounding rf) (hd : FloatRounding rd)
    (n : ℤ) (h0 : 0 ≤ n) (h1 : n ≤ 1023) :
    voltageOf rf rd (rf (n : ℚ)) = (n : ℚ) * (5 / 1024) := by
  have hn : rf (n : ℚ) = n := hf.int n (by rw [abs_lt]; constructor <;> omega)
  have h5 : rd 5 = 5 := by simpa using hd.int 5 (by norm_num)
  have h1024 : rd 1024 = 1024 := by simpa using hd.int 1024 (by norm_num)
  have hc : rd (5 / 1024) = 5 / 1024 :=
    hd.dyadic 5 (-10) _ (by norm_num) (by norm_num) (by norm_num)
  have hp : ∀ r : ℚ → ℚ, FloatRounding r → r ((n : ℚ) * (5 / 1024)) = (n : ℚ) * (5 / 1024) :=
    fun r hr => hr.dyadic (5 * n) (-10) _ (by rw [abs_lt]; constructor <;> omega) (by norm_num)
      (by push_cast; norm_num; ring)
  unfold voltageOf
  rw [hn, h5, h1024, hc, hp rd hd, hp rf hf]

theorem threshold_bounds {rd : ℚ → ℚ} (hd : FloatRounding rd) :
    307 / 512 ≤ rd (6 / 10) ∧ rd (6 / 10) ≤ 615 / 1024 := by
  have e1 : rd (307 / 512) = 307 / 512 :=
    hd.dyadic 307 (-9) _ (by norm_num) (by norm_num) (by norm_num)
  have e2 : rd (615 / 1024) = 615 / 1024 :=
    hd.dyadic 615 (-10) _ (by norm_num) (by norm_num) (by norm_num)
  have m1 := hd.1 (show (307 / 512 : ℚ) ≤ 6 / 10 by norm_num)
  have m2 := hd.1 (show (6 / 10 : ℚ) ≤ 615 / 1024 by norm_num)
  rw [e1] at m1
  rw [e2] at m2
  exact ⟨m1, m2⟩

/-- The comparison `calcVoltage >= 0.6` on the voltage of reading `n` holds from 123 on. -/
theorem threshold_iff {rd : ℚ → ℚ} (hd : FloatRounding rd) (n : ℤ) :
    rd (6 / 10) ≤ (n : ℚ) * (5 / 1024) ↔ 123 ≤ n := by
  obtain ⟨b1, b2⟩ := threshold_bounds hd
  constructor
  · intro h
    by_contra hc
    push_neg at hc
    have : (n : ℚ) ≤ 122 := by exact_mod_cast (by omega : n ≤ 122)
    linarith
  · intro h
    have : (123 : ℚ) ≤ n := by exact_mod_cast h
    linarith

theorem tenth_bounds {rd : ℚ → ℚ} (hd : FloatRounding rd) :
    |rd (1 / 10) - 1 / 10| ≤ 1 / 10 / 2 ^ 24 :=
  hd.err (1 / 10) (1 / 10) (1 / 10) (by norm_num) (by norm_num) le_rfl le_rfl

/-- Accumulated rounding error of the affine branch for a voltage between 0.6 and 5. -/
theorem affine_error {rf rd : ℚ → ℚ} (hf : FloatRounding rf) (hd : FloatRounding rd)
    (v : ℚ) (hv0 : 6 / 10 ≤ v) (hv1 : v ≤ 5) :
    |rf (rd (rd (rf (170 * v) - rd (1 / 10)) * rd (1 / 10))) - (170 * v - 1 / 10) * (1 / 10)|
      ≤ 1 / 10000 := by
  have hc := tenth_bounds hd
  have ha := hf.err (170 * v) 102 850 (by norm_num) (by norm_num)
    (by linarith) (by linarith)
  rw [abs_le] at hc ha
  obtain ⟨c1, c2⟩ := hc
  obtain ⟨a1, a2⟩ := ha
  norm_num at c1 c2 a1 a2
  have ht := hd.err (rf (170 * v) - rd (1 / 10)) 101 851 (by norm_num)
    (by norm_num) (by linarith) (by linarith)
  rw [abs_le] at ht
  obtain ⟨t1, t2⟩ := ht
  norm_num at t1 t2
  set c := rd (1 / 10) with hcdef
  set t := rd (rf (170 * v) - c) with htdef
  have hm := hd.err (t * c) 10 94 (by norm_num) (by norm_num)
    (by nlinarith) (by nlinarith)
  rw [abs_le] at hm
  obtain ⟨m1, m2⟩ := hm
  norm_num at m1 m2
  have hz := hf.err (rd (t * c)) 9 95 (by norm_num) (by norm_num)
    (by nlinarith) (by nlinarith)
  rw [abs_le] at hz
  obtain ⟨z1, z2⟩ := hz
  norm_num at z1 z2
  rw [abs_le]
  constructor <;> nlinarith

theorem affine_mono {rf rd : ℚ → ℚ} (hf : FloatRounding rf) (hd : FloatRounding rd)
    {v w : ℚ} (hvw : v ≤ w) :
    rf (rd (rd (rf (170 * v) - rd (1 / 10)) * rd (1 / 10)))
      ≤ rf (rd (rd (rf (170 * w) - rd (1 / 10)) * rd (1 / 10))) := by
  have hc : 0 ≤ rd (1 / 10) := by
    have := hd.1 (show (0 : ℚ) ≤ 1 / 10 by norm_num)
    rwa [hd.zero] at this
  apply hf.1
  apply hd.1
  apply mul_le_mul_of_nonneg_right _ hc
  apply hd.1
  have := hf.1 (show 170 * v ≤ 170 * w by linarith)
  linarith

theorem loop_calcVoltage {rf rd : ℚ → ℚ} (hf : FloatRounding rf) (hd : FloatRounding rd)
    (n : ℤ) (h0 : 0 ≤ n) (h1 : n ≤ 1023) (g : Globals) :
    (loop rf rd n g).1.calcVoltage = (n : ℚ) * (5 / 1024) := by
  show voltageOf rf rd (rf (n : ℚ)) = _
  exact voltage_exact hf hd n h0 h1

theorem loop_dustDensity {rf rd : ℚ → ℚ} (hf : FloatRounding rf) (hd : FloatRounding rd)
    (n : ℤ) (h0 : 0 ≤ n) (h1 : n ≤ 1023) (g : Globals) :
    (loop rf rd n g).1.dustDensity = densityOf rf rd ((n : ℚ) * (5 / 1024)) := by
  show densityOf rf rd (voltageOf rf rd (rf (n : ℚ))) = _
  rw [voltage_exact hf hd n h0 h1]

theorem density_low {rf rd : ℚ → ℚ} (hd : FloatRounding rd) (n : ℤ) (h : n ≤ 122) :
    densityOf rf rd ((n : ℚ) * (5 / 1024)) = 0 := by
  unfold densityOf
  rw [if_neg]
  rw [threshold_iff hd]
  omega

theorem density_high {rf rd : ℚ → ℚ} (hf : FloatRounding rf) (hd : FloatRounding rd)
    (n : ℤ) (h : 123 ≤ n) (h1 : n ≤ 1023) :
    densityOf rf rd ((n : ℚ) * (5 / 1024))
        = rf (rd (rd (rf (170 * ((n : ℚ) * (5 / 1024))) - rd (1 / 10)) * rd (1 / 10))) ∧
      |densityOf rf rd ((n : ℚ) * (5 / 1024)) - (170 * ((n : ℚ) * (5 / 1024)) - 1 / 10) * (1 / 10)|
        ≤ 1 / 10000 ∧
      10 < densityOf rf rd ((n : ℚ) * (5 / 1024)) := by
  have e : densityOf rf rd ((n : ℚ) * (5 / 1024))
      = rf (rd (rd (rf (170 * ((n : ℚ) * (5 / 1024))) - rd (1 / 10)) * rd (1 / 10))) := by
    unfold densityOf
    rw [if_pos ((threshold_iff hd n).mpr h)]
  have q0 : (123 : ℚ) ≤ n := by exact_mod_cast h
  have q1 : (n : ℚ) ≤ 1023 := by exact_mod_cast h1
  have herr := affine_error hf hd ((n : ℚ) * (5 / 1024)) (by linarith) (by linarith)
  rw [← e] at herr
  refine ⟨e, herr, ?_⟩
  rw [abs_le] at herr
  linarith [herr.1]

theorem density_mono {rf rd : ℚ → ℚ} (hf : FloatRounding rf) (hd : FloatRounding rd)
    (n n' : ℤ) (hn : n ≤ n') (h1 : n' ≤ 1023) :
    densityOf rf rd ((n : ℚ) * (5 / 1024)) ≤ densityOf rf rd ((n' : ℚ) * (5 / 1024)) := by
  by_cases c : n ≤ 122
  · rw [density_low hd n c]
    by_cases c' : n' ≤ 122
    · rw [density_low hd n' c']
    · have := (density_high hf hd n' (by omega) h1).2.2
      linarith
  · obtain ⟨e, _, _⟩ := density_high hf hd n (by omega) (by omega)
    obtain ⟨e', _, _⟩ := density_high hf hd n' (by omega) h1
    rw [e, e']
    apply affine_mono hf hd
    have : (n : ℚ) ≤ n' := by exact_mod_cast hn
    linarith

end AirBoxAlter

/-! ## The sine-wave sketch -/

namespace TestSketch

theorem loop_eq (table : List Int) (now : Nat) (s : LoopState) (v : Int)
    (hv : readTable table s.waveIndex = some v) :
    loop table now s = some
      ({ lastUpdateTime := if 1 ≤ usub32 now s.lastUpdateTime then now else s.lastUpdateTime,
         waveIndex := if 1 ≤ usub32 now s.lastUpdateTime then advance s.waveIndex else s.waveIndex,
         lastBlinkTime := if 500 ≤ usub32 now s.lastBlinkTime then now else s.lastBlinkTime,
         ledState := if 500 ≤ usub32 now s.lastBlinkTime then !s.ledState else s.ledState },
       (if 1 ≤ usub32 now s.lastUpdateTime then [Event.analogWrite pwmPin v] else []) ++
       (if 500 ≤ usub32 now s.lastBlinkTime then
          [Event.digitalWrite ledPin (!s.ledState), Event.serialPrintln "Hello, World!"]
        else [])) := by
  unfold loop waveformTimer heartbeatTimer
  rw [hv]
  by_cases c1 : 1 ≤ usub32 now s.lastUpdateTime <;>
    by_cases c2 : 500 ≤ usub32 now s.lastBlinkTime <;>
    simp [c1, c2]

theorem advance_iterate (k : Nat) (i : Int) (h0 : 0 ≤ i) (h1 : i < 20) :
    advance^[k] i = (i + (k : Int)) % 20 := by
  induction k with
  | zero =>
    rw [Function.iterate_zero, id]
    push_cast
    omega
  | succ n ih =>
    rw [Function.iterate_succ_apply', ih, advance_eq (by omega)]
    push_cast
    omega

/-- C4: when the waveform timer is due with the index at `i` in 0..19, the iteration writes table
entry `i` to the PWM pin first and leaves the index at `(i + 1) mod 20`; twenty advances bring
the index back to `i`, and no smaller positive number of advances does. -/
theorem waveIndex_cycle (table : List Int) (now : Nat) (s : LoopState) (v : Int)
    (h0 : 0 ≤ s.waveIndex) (h1 : s.waveIndex < 20)
    (hv : readTable table s.waveIndex = some v)
    (hdue : 1 ≤ usub32 now s.lastUpdateTime) :
    (∃ s2 ev, loop table now s = some (s2, Event.analogWrite pwmPin v :: ev) ∧
      s2.waveIndex = (s.waveIndex + 1) % 20) ∧
    advance^[20] s.waveIndex = s.waveIndex ∧
    ∀ k : Nat, 0 < k → k < 20 → advance^[k] s.waveIndex ≠ s.waveIndex := by
  refine ⟨?_, ?_, ?_⟩
  · rw [loop_eq table now s v hv]
    simp only [hdue, if_true, List.singleton_append]
    exact ⟨_, _, rfl, advance_eq h0⟩
  · rw [advance_iterate 20 s.waveIndex h0 h1]
    push_cast
    omega
  · intro k hk0 hk1
    rw [advance_iterate k s.waveIndex h0 h1]
    omega

theorem waveIndex_cycle_witness :
    ((0 : Int) ≤ 19 ∧ (19 : Int) < 20 ∧
      readTable (List.range 20 |>.map (fun (i : Nat) => (i : Int) + 100)) 19 = some 119 ∧
      1 ≤ usub32 1 0) ∧
    ((∃ s2 ev, loop (List.range 20 |>.map (fun (i : Nat) => (i : Int) + 100)) 1
        { lastUpdateTime := 0, waveIndex := 19, lastBlinkTime := 0, ledState := false }
          = some (s2, Event.analogWrite pwmPin 119 :: ev) ∧
      s2.waveIndex = ((19 : Int) + 1) % 20) ∧
    advance^[20] (19 : Int) = 19 ∧
    ∀ k : Nat, 0 < k → k < 20 → advance^[k] (19 : Int) ≠ 19) :=
  ⟨⟨by decide, by decide, by decide, by decide⟩,
    waveIndex_cycle (List.range 20 |>.map (fun (i : Nat) => (i : Int) + 100)) 1
      { lastUpdateTime := 0, waveIndex := 19, lastBlinkTime := 0, ledState := false } 119
      (by decide) (by decide) (by decide) (by decide)⟩

/-- C6: one iteration of `loop` in closed form. The waveform timer fires exactly when
`now - lastUpdateTime >= 1` and the heartbeat timer exactly when `now - lastBlinkTime >= 500`
(unsigned subtraction), each test reading only `now` and its own reference point; both may fire
in the same iteration; a timer that fires stores `now` as its reference point; a timer that does
not fire keeps its reference point and its index or LED state and issues no hardware call. -/
theorem loop_timers_frame (table : List Int) (now : Nat) (s : LoopState) (v : Int)
    (hv : readTable table s.waveIndex = some v) :
    loop table now s = some
      ({ lastUpdateTime := if 1 ≤ usub32 now s.lastUpdateTime then now else s.lastUpdateTime,
         waveIndex := if 1 ≤ usub32 now s.lastUpdateTime then advance s.waveIndex else s.waveIndex,
         lastBlinkTime := if 500 ≤ usub32 now s.lastBlinkTime then now else s.lastBlinkTime,
         ledState := if 500 ≤ usub32 now s.lastBlinkTime then !s.ledState else s.ledState },
       (if 1 ≤ usub32 now s.lastUpdateTime then [Event.analogWrite pwmPin v] else []) ++
       (if 500 ≤ usub32 now s.lastBlinkTime then
          [Event.digitalWrite ledPin (!s.ledState), Event.serialPrintln "Hello, World!"]
        else [])) :=
  loop_eq table now s v hv

theorem loop_timers_frame_witness :
    readTable (List.replicate 20 7) 3 = some 7 ∧
    loop (List.replicate 20 7) 1700
        { lastUpdateTime := 1699, waveIndex := 3, lastBlinkTime := 1000, ledState := true }
      = some ({ lastUpdateTime := 1700, waveIndex := 4, lastBlinkTime := 1700, ledState := false },
          [Event.analogWrite pwmPin 7, Event.digitalWrite ledPin false,
           Event.serialPrintln "Hello, World!"]) :=
  ⟨by decide,
    (loop_timers_frame (List.replicate 20 7) 1700
      { lastUpdateTime := 1699, waveIndex := 3, lastBlinkTime := 1000, ledState := true } 7
      (by decide)).trans (by decide)⟩

/-- C8: from the initial statics (`waveIndex = 0`) and the table filled by `setup`, any number
of iterations of `loop` with arbitrary `millis()` readings runs without an out-of-bounds table
read and ends with `0 <= waveIndex < 20`, where the table read is defined. -/
theorem waveIndex_in_bounds (rd sin : ℚ → ℚ) (PI : ℚ) (ts : List Nat) :
    ∃ s tr, run (setup rd sin PI).1 ts initState = some (s, tr) ∧
      0 ≤ s.waveIndex ∧ s.waveIndex < 20 ∧
      (setup rd sin PI).1.length = 20 ∧
      ∃ v, readTable (setup rd sin PI).1 s.waveIndex = some v := by
  have hlen : (setup rd sin PI).1.length = 20 := sineTable_length rd sin PI
  obtain ⟨s, tr, hr, a0, a1⟩ :=
    run_total (setup rd sin PI).1 hlen ts initState (by decide) (by decide)
  exact ⟨s, tr, hr, a0, a1, hlen, readTable_some _ a0 (by rw [hlen]; exact_mod_cast a1)⟩

/-- C9: with `now = (last + d) mod 2^32` for a reference point `last` and a true elapsed time
`d`, both below `2^32`, the unsigned difference `now - last` is `d`; so the heartbeat timer
fires exactly when `d >= 500` and the waveform timer exactly when `d >= 1`, also when the
counter has rolled over. -/
theorem millis_rollover (last d : Nat) (_hl : last < 2 ^ 32) (hd : d < 2 ^ 32) :
    usub32 ((last + d) % 2 ^ 32) last = d ∧
    (∀ s : LoopState, s.lastBlinkTime = last →
      ((heartbeatTimer ((last + d) % 2 ^ 32) s).2 ≠ [] ↔ 500 ≤ d)) ∧
    (∀ (table : List Int) (s : LoopState) (v : Int), s.lastUpdateTime = last →
      readTable table s.waveIndex = some v →
      ((∃ s1, waveformTimer table ((last + d) % 2 ^ 32) s
          = some (s1, [Event.analogWrite pwmPin v])) ↔ 1 ≤ d)) := by
  have hu : usub32 ((last + d) % 2 ^ 32) last = d := usub32_wrap hd
  refine ⟨hu, ?_, ?_⟩
  · intro s hs
    unfold heartbeatTimer
    rw [hs, hu]
    by_cases c : 500 ≤ d <;> simp [c]
  · intro table s v hs hv
    unfold waveformTimer
    rw [hs, hu, hv]
    by_cases c : 1 ≤ d <;> simp [c]

theorem millis_rollover_witness :
    (4294967000 < 2 ^ 32 ∧ 500 < 2 ^ 32) ∧
    (4294967000 + 500) % 2 ^ 32 = 204 ∧
    usub32 ((4294967000 + 500) % 2 ^ 32) 4294967000 = 500 :=
  ⟨⟨by norm_num, by norm_num⟩, by norm_num,
    (millis_rollover 4294967000 500 (by norm_num) (by norm_num)).1⟩


/-- C5: from the initial statics (`ledState = false`, `lastBlinkTime = 0`), over any
non-decreasing sequence of `millis()` readings below `2^32`: every iteration toggles the LED
state once, with one write to the LED pin, when `now - lastBlinkTime >= 500` and otherwise
leaves it alone with no write; the first, third, fifth ... toggle writes HIGH and the others
LOW; and the readings of two consecutive toggles are at least 500 apart. -/
theorem heartbeat_alternates (rd sin : ℚ → ℚ) (PI : ℚ) (ts : List Nat)
    (hs : ts.Pairwise (fun a b => a ≤ b)) (hb : ∀ t ∈ ts, t < 2 ^ 32) :
    (∀ (now : Nat) (s : LoopState), 0 ≤ s.waveIndex → s.waveIndex < 20 →
      ∃ s2 ev, loop (setup rd sin PI).1 now s = some (s2, ev) ∧
        (500 ≤ usub32 now s.lastBlinkTime →
          s2.ledState = (!s.ledState) ∧ ledWrites ev = [!s.ledState]) ∧
        (¬ 500 ≤ usub32 now s.lastBlinkTime →
          s2.ledState = s.ledState ∧ ledWrites ev = [])) ∧
    ∃ s2 tr, run (setup rd sin PI).1 ts initState = some (s2, tr) ∧
      (∀ (k : Nat) (h : k < (toggles tr).length),
        ((toggles tr).get ⟨k, h⟩).2 = decide (k % 2 = 0)) ∧
      (∀ (k : Nat) (h : k + 1 < (toggles tr).length),
        ((toggles tr).get ⟨k, Nat.lt_of_succ_lt h⟩).1 + 500 ≤ ((toggles tr).get ⟨k + 1, h⟩).1) := by
  have hlen : (setup rd sin PI).1.length = 20 := sineTable_length rd sin PI
  constructor
  · intro now s h0 h1
    obtain ⟨s2, ev, hl, _, _⟩ := loop_total (setup rd sin PI).1 hlen now s h0 h1
    obtain ⟨f1, f2⟩ := loop_heartbeat (setup rd sin PI).1 now s s2 ev hl
    exact ⟨s2, ev, hl, fun c => ⟨(f1 c).1, (f1 c).2.2⟩, fun c => ⟨(f2 c).1, (f2 c).2.2⟩⟩
  · obtain ⟨s2, tr, hr, hg⟩ := run_goodToggles (setup rd sin PI).1 hlen ts initState
      (by decide) (by decide) hs hb (fun t _ => Nat.zero_le t)
    refine ⟨s2, tr, hr, ?_, ?_⟩
    · intro k h
      have := goodToggles_level (toggles tr) _ _ hg k h
      rw [this]
      by_cases c : k % 2 = 0 <;> simp [c, initState]
    · intro k h
      exact goodToggles_gap (toggles tr) _ _ hg k h

theorem heartbeat_alternates_witness :
    ([0, 499, 500, 999, 1000, 1600].Pairwise (fun a b => a ≤ b) ∧
      ∀ t ∈ [0, 499, 500, 999, 1000, 1600], t < 2 ^ 32) ∧
    ∃ s2 tr, run (setup (roundTo 53) sinClamp (355 / 113)).1 [0, 499, 500, 999, 1000, 1600]
        initState = some (s2, tr) ∧
      (∀ (k : Nat) (h : k < (toggles tr).length),
        ((toggles tr).get ⟨k, h⟩).2 = decide (k % 2 = 0)) ∧
      (∀ (k : Nat) (h : k + 1 < (toggles tr).length),
        ((toggles tr).get ⟨k, Nat.lt_of_succ_lt h⟩).1 + 500 ≤ ((toggles tr).get ⟨k + 1, h⟩).1) :=
  ⟨⟨by decide, by decide⟩,
    (heartbeat_alternates (roundTo 53) sinClamp (355 / 113) [0, 499, 500, 999, 1000, 1600]
      (by decide) (by decide)).2⟩

/-- C3: the table filled by `setup` has `sampleRate / waveFrequency = 1000 / 50 = 20` entries;
entry `i` is the truncation of `127.5 * sin(2 * PI * i / 20) + 127.5` and lies in `[0, 255]`;
entry 0 is 127. Holds for every `double` rounding `rd` and every library sine `sin` that stays
within `[-1, 1]` and maps 0 to 0. -/
theorem sineTable_entries (rd sin : ℚ → ℚ) (PI : ℚ) (hd : FloatRounding rd)
    (hsin : ∀ x, -1 ≤ sin x ∧ sin x ≤ 1) (hsin0 : sin 0 = 0) :
    samplesPerCycle = Int.tdiv 1000 50 ∧ samplesPerCycle = 20 ∧
    (setup rd sin PI).1.length = 20 ∧
    (∀ i : Nat, i < 20 →
      ∃ e, (setup rd sin PI).1[i]? = some e ∧ e = sineEntry rd sin PI (i : Int) ∧
        0 ≤ e ∧ e ≤ 255) ∧
    (setup rd sin PI).1[0]? = some 127 := by
  refine ⟨rfl, samplesPerCycle_eq, sineTable_length rd sin PI, ?_, ?_⟩
  · intro i hi
    exact ⟨_, sineTable_get rd sin PI i hi, rfl, sineEntry_range hd hsin PI i⟩
  · have := sineTable_get rd sin PI 0 (by norm_num)
    rw [show ((0 : Nat) : Int) = 0 from rfl, sineEntry_zero hd hsin0 PI] at this
    exact this

theorem sinClamp_range (x : ℚ) : -1 ≤ sinClamp x ∧ sinClamp x ≤ 1 :=
  ⟨le_max_left _ _, max_le (by norm_num) (min_le_left _ _)⟩

theorem sinClamp_zero : sinClamp 0 = 0 := by
  norm_num [sinClamp]

theorem sineTable_entries_witness :
    (FloatRounding (roundTo 53) ∧ (∀ x, -1 ≤ sinClamp x ∧ sinClamp x ≤ 1) ∧ sinClamp 0 = 0) ∧
    (setup (roundTo 53) sinClamp (355 / 113)).1.length = 20 ∧
    (setup (roundTo 53) sinClamp (355 / 113)).1[0]? = some 127 :=
  ⟨⟨floatRounding_roundTo 53 (by norm_num), sinClamp_range, sinClamp_zero⟩,
    (sineTable_entries (roundTo 53) sinClamp (355 / 113) (floatRounding_roundTo 53 (by norm_num))
      sinClamp_range sinClamp_zero).2.2.1,
    (sineTable_entries (roundTo 53) sinClamp (355 / 113) (floatRounding_roundTo 53 (by norm_num))
      sinClamp_range sinClamp_zero).2.2.2.2⟩

end TestSketch

/-! ## Concrete binary32 and binary64 evaluations -/

theorem roundTo_eq (p : ℕ) (x : ℚ) (e m : ℤ) (hx : 0 < x) (h1 : (2 : ℚ) ^ e ≤ x)
    (h2 : x < (2 : ℚ) ^ (e + 1)) (hm : |x / 2 ^ (e - ((p : ℤ) - 1)) - m| < 1 / 2) :
    roundTo p x = (m : ℚ) * 2 ^ (e - ((p : ℤ) - 1)) := by
  have hlog : Int.log 2 x = e := by
    apply le_antisymm
    · have := (Int.lt_zpow_iff_log_lt (b := 2) (by norm_num) hx).mp (by simpa using h2)
      omega
    · exact (Int.zpow_le_iff_le_log (b := 2) (by norm_num) hx).mp (by simpa using h1)
  have hu : ulpExp p x = e - ((p : ℤ) - 1) := by
    unfold ulpExp
    rw [abs_of_pos hx, hlog]
  unfold roundTo
  rw [if_neg hx.ne', hu, rhe_unique _ m hm.le (fun h => absurd h hm.ne)]

namespace AirBoxAlter

/-- The binary32 value of the literal `0.1`. -/
theorem binary32_tenth : roundTo 24 (1 / 10) = 13421773 / 134217728 := by
  rw [roundTo_eq 24 (1 / 10) (-4) 13421773 (by norm_num) (by norm_num) (by norm_num)
    (by rw [abs_lt]; constructor <;> norm_num)]
  norm_num

/-- On a target whose `double` is binary32, a reading of 512 stores the binary32 neighbour of
42.49 in `dustDensity`. -/
theorem binary32_density_512 (g : Globals) :
    (loop (roundTo 24) (roundTo 24) 512 g).1.dustDensity = 11138499 / 262144 := by
  have hf := floatRounding_roundTo 24 le_rfl
  rw [loop_dustDensity hf hf 512 (by norm_num) (by norm_num) g]
  rw [(density_high hf hf 512 (by norm_num) (by norm_num)).1, binary32_tenth]
  have e1 : roundTo 24 (170 * (((512 : ℤ) : ℚ) * (5 / 1024))) = 425 := by
    have := hf.int 425 (by norm_num)
    norm_num at this ⊢
    exact this
  rw [e1]
  have e2 : roundTo 24 ((425 : ℚ) - 13421773 / 134217728) = 13923123 / 32768 := by
    rw [roundTo_eq 24 _ 8 13923123 (by norm_num) (by norm_num) (by norm_num)
      (by rw [abs_lt]; constructor <;> norm_num)]
    norm_num
  rw [e2]
  have e3 : roundTo 24 ((13923123 / 32768 : ℚ) * (13421773 / 134217728)) = 11138499 / 262144 := by
    rw [roundTo_eq 24 _ 5 11138499 (by norm_num) (by norm_num) (by norm_num)
      (by rw [abs_lt]; constructor <;> norm_num)]
    norm_num
  rw [e3]
  exact hf.dyadic 11138499 (-18) _ (by norm_num) (by norm_num) (by norm_num)


/-- The binary32 value of the literal `42.49`. -/
theorem binary32_literal_4249 : roundTo 24 (4249 / 100) = 11138499 / 262144 := by
  rw [roundTo_eq 24 (4249 / 100) 5 11138499 (by norm_num) (by norm_num) (by norm_num)
    (by rw [abs_lt]; constructor <;> norm_num)]
  norm_num

/-- The binary64 value of the literal `0.1`. -/
theorem binary64_tenth : roundTo 53 (1 / 10) = 3602879701896397 / 36028797018963968 := by
  rw [roundTo_eq 53 (1 / 10) (-4) 7205759403792794 (by norm_num) (by norm_num) (by norm_num)
    (by rw [abs_lt]; constructor <;> norm_num)]
  norm_num

/-- On a target whose `double` is binary64, a reading of 512 stores the same binary32 value. -/
theorem binary64_density_512 (g : Globals) :
    (loop (roundTo 24) (roundTo 53) 512 g).1.dustDensity = 11138499 / 262144 := by
  have hf := floatRounding_roundTo 24 le_rfl
  have hd := floatRounding_roundTo 53 (by norm_num)
  rw [loop_dustDensity hf hd 512 (by norm_num) (by norm_num) g]
  rw [(density_high hf hd 512 (by norm_num) (by norm_num)).1, binary64_tenth]
  have e1 : roundTo 24 (170 * (((512 : ℤ) : ℚ) * (5 / 1024))) = 425 := by
    have := hf.int 425 (by norm_num)
    norm_num at this ⊢
    exact this
  rw [e1]
  have e2 : roundTo 53 ((425 : ℚ) - 3602879701896397 / 36028797018963968)
      = 3737459925136179 / 8796093022208 := by
    rw [roundTo_eq 53 _ 8 7474919850272358 (by norm_num) (by norm_num) (by norm_num)
      (by rw [abs_lt]; constructor <;> norm_num)]
    norm_num
  rw [e2]
  have e3 : roundTo 53 ((3737459925136179 / 8796093022208 : ℚ)
      * (3602879701896397 / 36028797018963968)) = 5979935880217887 / 140737488355328 := by
    rw [roundTo_eq 53 _ 5 5979935880217887 (by norm_num) (by norm_num) (by norm_num)
      (by rw [abs_lt]; constructor <;> norm_num)]
    norm_num
  rw [e3]
  rw [roundTo_eq 24 _ 5 11138499 (by norm_num) (by norm_num) (by norm_num)
    (by rw [abs_lt]; constructor <;> norm_num)]
  norm_num

end AirBoxAlter

/-! ## The dust-sensor sketch -/

namespace AirBoxAlter

theorem density_exact (v : ℚ) :
    densityOf id id v = if 6 / 10 ≤ v then (170 * v - 1 / 10) * (1 / 10) else 0 := rfl

theorem loop_exact (n : ℤ) (g : Globals) :
    (loop id id n g).1.calcVoltage = (n : ℚ) * (5 / 1024) ∧
    (loop id id n g).1.dustDensity = densityOf id id ((n : ℚ) * (5 / 1024)) :=
  ⟨rfl, rfl⟩

/-- C1: for a reading `r` in 0..1023 the stored `calcVoltage` is exactly `r * (5 / 1024)`, with
no rounding error in any binary format of 24 or more significant bits, and the iteration prints
exactly one serial line, which carries that voltage. -/
theorem loop_voltage_exact (rf rd : ℚ → ℚ) (hf : FloatRounding rf) (hd : FloatRounding rd)
    (r : ℤ) (h0 : 0 ≤ r) (h1 : r ≤ 1023) (g : Globals) :
    (loop rf rd r g).1.calcVoltage = (r : ℚ) * (5 / 1024) ∧
    serialLines (loop rf rd r g).2 = [(loop rf rd r g).1.calcVoltage] ∧
    serialLines (loop rf rd r g).2 = [(r : ℚ) * (5 / 1024)] := by
  have hv := loop_calcVoltage hf hd r h0 h1 g
  refine ⟨hv, rfl, ?_⟩
  rw [← hv]
  rfl

theorem loop_voltage_exact_witness :
    (FloatRounding (roundTo 24) ∧ (0 : ℤ) ≤ 1023 ∧ (1023 : ℤ) ≤ 1023) ∧
    (loop (roundTo 24) (roundTo 24) 1023 initGlobals).1.calcVoltage = 5115 / 1024 ∧
    serialLines (loop (roundTo 24) (roundTo 24) 1023 initGlobals).2 = [5115 / 1024] := by
  have h := loop_voltage_exact (roundTo 24) (roundTo 24) (floatRounding_roundTo 24 le_rfl)
    (floatRounding_roundTo 24 le_rfl) 1023 (by norm_num) (by norm_num) initGlobals
  have e : (((1023 : ℤ) : ℚ)) * (5 / 1024) = 5115 / 1024 := by norm_num
  rw [e] at h
  exact ⟨⟨floatRounding_roundTo 24 le_rfl, by norm_num, by norm_num⟩, h.1, h.2.2⟩

/-- C2: in exact arithmetic the density is `(170 v - 0.1) * 0.1` for every voltage `v >= 0.6`
and 0 for `v < 0.6`, the boundary `v = 0.6` takes the affine branch (10.19), and a reading of
512 gives voltage 2.5 and density 42.49. In floating point (any roundings with 24 or more
significant bits) every reading `n` in 0..1023 takes the same branch, gives 0 below the
threshold and a density within `1/10000` of the affine value above it; a reading of 512 gives
voltage exactly 2.5, and with binary32 `float` (and `double` either binary32 or binary64) the
density stored for it is the binary32 value of the literal `42.49`. -/
theorem density_threshold_affine (rf rd : ℚ → ℚ) (hf : FloatRounding rf) (hd : FloatRounding rd)
    (n : ℤ) (h0 : 0 ≤ n) (h1 : n ≤ 1023) (g : Globals) :
    ((∀ v : ℚ, (6 / 10 ≤ v → densityOf id id v = (170 * v - 1 / 10) * (1 / 10)) ∧
        (v < 6 / 10 → densityOf id id v = 0)) ∧
      densityOf id id (6 / 10) = 1019 / 100 ∧
      (loop id id 512 g).1.calcVoltage = 5 / 2 ∧
      (loop id id 512 g).1.dustDensity = 4249 / 100) ∧
    ((loop rf rd n g).1.calcVoltage = (n : ℚ) * (5 / 1024) ∧
      ((loop rf rd n g).1.calcVoltage < 6 / 10 → (loop rf rd n g).1.dustDensity = 0) ∧
      (6 / 10 ≤ (loop rf rd n g).1.calcVoltage →
        (loop rf rd n g).1.dustDensity
            = rf (rd (rd (rf (170 * (loop rf rd n g).1.calcVoltage) - rd (1 / 10)) * rd (1 / 10))) ∧
        |(loop rf rd n g).1.dustDensity
            - (170 * (loop rf rd n g).1.calcVoltage - 1 / 10) * (1 / 10)| ≤ 1 / 10000) ∧
      (loop rf rd 512 g).1.calcVoltage = 5 / 2 ∧
      |(loop rf rd 512 g).1.dustDensity - 4249 / 100| ≤ 1 / 10000) ∧
    ((loop (roundTo 24) (roundTo 24) 512 g).1.dustDensity = roundTo 24 (4249 / 100) ∧
      (loop (roundTo 24) (roundTo 53) 512 g).1.dustDensity = roundTo 24 (4249 / 100)) := by
  refine ⟨⟨fun v => ⟨fun h => ?_, fun h => ?_⟩, ?_, ?_, ?_⟩, ⟨?_, ?_, ?_, ?_, ?_⟩,
    ⟨by rw [binary32_density_512, binary32_literal_4249],
     by rw [binary64_density_512, binary32_literal_4249]⟩⟩
  · rw [density_exact, if_pos h]
  · rw [density_exact, if_neg (not_le.mpr h)]
  · rw [density_exact]; norm_num
  · rw [(loop_exact 512 g).1]; norm_num
  · rw [(loop_exact 512 g).2, density_exact]; norm_num
  · exact loop_calcVoltage hf hd n h0 h1 g
  · rw [loop_calcVoltage hf hd n h0 h1 g, loop_dustDensity hf hd n h0 h1 g]
    intro h
    apply density_low hd
    by_contra hc
    have : (123 : ℚ) ≤ n := by exact_mod_cast (by omega : 123 ≤ n)
    linarith
  · rw [loop_calcVoltage hf hd n h0 h1 g, loop_dustDensity hf hd n h0 h1 g]
    intro h
    have hn : 123 ≤ n := by
      by_contra hc
      have : (n : ℚ) ≤ 122 := by exact_mod_cast (by omega : n ≤ 122)
      linarith
    exact ⟨(density_high hf hd n hn h1).1, (density_high hf hd n hn h1).2.1⟩
  · rw [loop_calcVoltage hf hd 512 (by norm_num) (by norm_num) g]; norm_num
  · rw [loop_dustDensity hf hd 512 (by norm_num) (by norm_num) g]
    have := (density_high hf hd 512 (by norm_num) (by norm_num)).2.1
    norm_num at this ⊢
    exact this

theorem density_threshold_affine_witness :
    (FloatRounding (roundTo 24) ∧ FloatRounding (roundTo 53) ∧ (0 : ℤ) ≤ 512 ∧ (512 : ℤ) ≤ 1023) ∧
    (loop (roundTo 24) (roundTo 53) 512 initGlobals).1.calcVoltage = 5 / 2 ∧
    |(loop (roundTo 24) (roundTo 53) 512 initGlobals).1.dustDensity - 4249 / 100| ≤ 1 / 10000 :=
  ⟨⟨floatRounding_roundTo 24 le_rfl, floatRounding_roundTo 53 (by norm_num), by norm_num,
      by norm_num⟩,
    (density_threshold_affine (roundTo 24) (roundTo 53) (floatRounding_roundTo 24 le_rfl)
      (floatRounding_roundTo 53 (by norm_num)) 512 (by norm_num) (by norm_num)
      initGlobals).2.1.2.2.2⟩


theorem reading_ne_threshold (m : ℤ) : (m : ℚ) * (5 / 1024) ≠ 6 / 10 := by
  intro h
  have h2 : (m : ℚ) * 50 = 6144 := by linarith
  have h3 : m * 50 = 6144 := by exact_mod_cast h2
  omega

/-- C10: over the raw reading. In exact arithmetic, for every reading `m` in 0..1023 the density
is 0 exactly when `m <= 122`, equals `(170 * (5 m / 1024) - 0.1) * 0.1 > 10` when `m >= 123`, and
no reading gives a voltage of exactly 0.6. In floating point (any roundings with 24 or more
significant bits) the density of a reading `n` in 0..1023 is 0 exactly when `n <= 122`, exceeds
10 and is within `1/10000` of the affine value when `n >= 123`, is never negative, never lies
strictly between 0 and 10, and is non-decreasing in the reading; reading 122 gives 0 and
reading 123 more than 10. -/
theorem density_of_reading (rf rd : ℚ → ℚ) (hf : FloatRounding rf) (hd : FloatRounding rd)
    (n : ℤ) (h0 : 0 ≤ n) (h1 : n ≤ 1023) (g : Globals) :
    (∀ m : ℤ, 0 ≤ m → m ≤ 1023 →
      ((loop id id m g).1.dustDensity = 0 ↔ m ≤ 122) ∧
      (123 ≤ m →
        (loop id id m g).1.dustDensity = (170 * (5 * (m : ℚ) / 1024) - 1 / 10) * (1 / 10) ∧
        10 < (loop id id m g).1.dustDensity) ∧
      (loop id id m g).1.calcVoltage ≠ 6 / 10) ∧
    (((loop rf rd n g).1.dustDensity = 0 ↔ n ≤ 122) ∧
      (123 ≤ n → 10 < (loop rf rd n g).1.dustDensity ∧
        |(loop rf rd n g).1.dustDensity - (170 * (5 * (n : ℚ) / 1024) - 1 / 10) * (1 / 10)|
          ≤ 1 / 10000) ∧
      0 ≤ (loop rf rd n g).1.dustDensity ∧
      ¬ (0 < (loop rf rd n g).1.dustDensity ∧ (loop rf rd n g).1.dustDensity < 10) ∧
      (∀ n2 : ℤ, n ≤ n2 → n2 ≤ 1023 →
        (loop rf rd n g).1.dustDensity ≤ (loop rf rd n2 g).1.dustDensity) ∧
      (loop rf rd 122 g).1.dustDensity = 0 ∧ 10 < (loop rf rd 123 g).1.dustDensity) := by
  have key : ∀ (qf qd : ℚ → ℚ), FloatRounding qf → FloatRounding qd → ∀ k : ℤ, 0 ≤ k → k ≤ 1023 →
      ((loop qf qd k g).1.dustDensity = 0 ↔ k ≤ 122) ∧
      (123 ≤ k → 10 < (loop qf qd k g).1.dustDensity ∧
        |(loop qf qd k g).1.dustDensity - (170 * (5 * (k : ℚ) / 1024) - 1 / 10) * (1 / 10)|
          ≤ 1 / 10000) := by
    intro qf qd hqf hqd k k0 k1
    rw [loop_dustDensity hqf hqd k k0 k1 g]
    constructor
    · constructor
      · intro hz
        by_contra hc
        have := (density_high hqf hqd k (by omega) k1).2.2
        linarith
      · exact density_low hqd k
    · intro hk
      obtain ⟨_, e2, e3⟩ := density_high hqf hqd k hk k1
      refine ⟨e3, ?_⟩
      rw [show (5 * (k : ℚ) / 1024) = (k : ℚ) * (5 / 1024) by ring]
      exact e2
  constructor
  · intro m m0 m1
    obtain ⟨a1, a2⟩ := key id id floatRounding_id floatRounding_id m m0 m1
    refine ⟨a1, fun hm => ⟨?_, (a2 hm).1⟩, ?_⟩
    · rw [(loop_exact m g).2, density_exact, if_pos]
      · ring
      · have : (123 : ℚ) ≤ m := by exact_mod_cast hm
        linarith
    · rw [(loop_exact m g).1]
      exact reading_ne_threshold m
  · obtain ⟨a1, a2⟩ := key rf rd hf hd n h0 h1
    have hnn : 0 ≤ (loop rf rd n g).1.dustDensity := by
      by_cases c : n ≤ 122
      · exact (a1.mpr c).ge
      · have := (a2 (by omega)).1
        linarith
    refine ⟨a1, a2, hnn, ?_, ?_, ?_, ?_⟩
    · rintro ⟨p1, p2⟩
      by_cases c : n ≤ 122
      · have := a1.mpr c
        linarith
      · have := (a2 (by omega)).1
        linarith
    · intro n2 hn2 h2
      rw [loop_dustDensity hf hd n h0 h1 g, loop_dustDensity hf hd n2 (by omega) h2 g]
      exact density_mono hf hd n n2 hn2 h2
    · exact (key rf rd hf hd 122 (by norm_num) (by norm_num)).1.mpr (by norm_num)
    · exact ((key rf rd hf hd 123 (by norm_num) (by norm_num)).2 (by norm_num)).1

theorem density_of_reading_witness :
    (FloatRounding (roundTo 24) ∧ FloatRounding (roundTo 24) ∧ (0 : ℤ) ≤ 123 ∧ (123 : ℤ) ≤ 1023) ∧
    (loop (roundTo 24) (roundTo 24) 122 initGlobals).1.dustDensity = 0 ∧
    10 < (loop (roundTo 24) (roundTo 24) 123 initGlobals).1.dustDensity :=
  ⟨⟨floatRounding_roundTo 24 le_rfl, floatRounding_roundTo 24 le_rfl, by norm_num, by norm_num⟩,
    (density_of_reading (roundTo 24) (roundTo 24) (floatRounding_roundTo 24 le_rfl)
      (floatRounding_roundTo 24 le_rfl) 123 (by norm_num) (by norm_num) initGlobals).2.2.2.2.2.2⟩

theorem writesTo_append (pin : Int) (a b : List Event) :
    writesTo pin (a ++ b) = writesTo pin a ++ writesTo pin b := by
  induction a with
  | nil => rfl
  | cons e a ih =>
    cases e with
    | analogWrite p v =>
      by_cases hp : p = pin
      · simp [writesTo, hp, ih]
      · simp [writesTo, hp, ih]
    | pinMode _ _ => simpa [writesTo] using ih
    | serialBegin _ => simpa [writesTo] using ih
    | digitalWrite _ _ => simpa [writesTo] using ih
    | delayMicroseconds _ => simpa [writesTo] using ih
    | delay _ => simpa [writesTo] using ih
    | serialPrintln _ => simpa [writesTo] using ih

theorem writesTo_steps (r g b : Int) (l : List Nat) :
    writesTo led_r (l.flatMap (fun (i : Nat) => breathStep r g b (i : Int)))
      = l.map (fun (i : Nat) => Int.tdiv r gap * (i : Int)) := by
  induction l with
  | nil => rfl
  | cons i l ih =>
    rw [List.flatMap_cons, writesTo_append, ih, List.map_cons]
    simp [breathStep, writesTo, led_r, led_g, led_b]

/-- Every value `showBreathing` writes to the red channel is `(r / 100) * i`, the quotient
being the truncated integer division, for `i` from 1 to 99 and then from 100 down to 1. -/
theorem showBreathing_red (r g b : Int) :
    writesTo led_r (showBreathing r g b)
      = ((List.range' 1 99) ++ (List.range' 1 100).reverse).map
          (fun (i : Nat) => Int.tdiv r 100 * (i : Int)) := by
  unfold showBreathing
  rw [writesTo_append, writesTo_steps, writesTo_steps, List.map_append]
  rfl

/-- C7 (the code departs from the claim): at targets (255, 255, 255) the red channel never
receives more than 200, the value 200 is written and 255 never is, and the 50th write is 100
where the linear ramp `255 * 50 / 100` gives 127; at targets (50, 50, 50) every write is 0. -/
theorem showBreathing_peak :
    (∀ v ∈ writesTo led_r (showBreathing 255 255 255), v ≤ 200) ∧
    200 ∈ writesTo led_r (showBreathing 255 255 255) ∧
    255 ∉ writesTo led_r (showBreathing 255 255 255) ∧
    (writesTo led_r (showBreathing 255 255 255))[49]? = some 100 ∧
    Int.tdiv (255 * 50) 100 = 127 ∧
    (∀ v ∈ writesTo led_r (showBreathing 50 50 50), v = 0) := by
  have h255 : Int.tdiv 255 100 = 2 := by decide
  have h50 : Int.tdiv 50 100 = 0 := by decide
  refine ⟨?_, ?_, ?_, ?_, by decide, ?_⟩
  · intro v hv
    rw [showBreathing_red, h255] at hv
    simp only [List.mem_map, List.mem_append, List.mem_reverse, List.mem_range'_1] at hv
    obtain ⟨i, hi, rfl⟩ := hv
    omega
  · rw [showBreathing_red, h255]
    simp only [List.mem_map, List.mem_append, List.mem_reverse, List.mem_range'_1]
    exact ⟨100, by omega, by norm_num⟩
  · intro hv
    rw [showBreathing_red, h255] at hv
    simp only [List.mem_map, List.mem_append, List.mem_reverse, List.mem_range'_1] at hv
    obtain ⟨i, hi, he⟩ := hv
    omega
  · rw [showBreathing_red, h255, List.getElem?_map,
      List.getElem?_append_left (by simp), List.getElem?_range' _ _ (by norm_num)]
    norm_num
  · intro v hv
    rw [showBreathing_red, h50] at hv
    simp only [List.mem_map, List.mem_append, List.mem_reverse, List.mem_range'_1] at hv
    obtain ⟨i, hi, rfl⟩ := hv
    omega

end AirBoxAlter
